import Mathlib

/-!
Verification of the de-bruijn repository (src/main.rs): a parser for a
minimal untyped lambda calculus, a converter from named terms to De Bruijn
(nameless) terms, and a fuel-indexed model of the recursive beta reducer.
All definitions are shallow embeddings of the Rust source; the parser's
low-level helpers come from the external TSPL crate and are modelled from
the specification's grammar section.
-/

/-- Named term, mirroring the Rust enum `Term`:
`Lam { name, body }`, `App { func, argm }`, `Var { name }`. -/
inductive Term : Type
  | lam (name : String) (body : Term)
  | app (func : Term) (argm : Term)
  | var (name : String)
deriving DecidableEq

/-- Nameless term, mirroring the Rust enum `DeBruijnTerm`:
`Lam(Box<DeBruijnTerm>)`, `App(Box<..>, Box<..>)`, `Var(usize)`.
The `usize` index is modelled as `Nat`. -/
inductive DeBruijnTerm : Type
  | lam (body : DeBruijnTerm)
  | app (func : DeBruijnTerm) (argm : DeBruijnTerm)
  | var (index : Nat)
deriving DecidableEq

/-- Modelled from the spec: trivia characters skipped between tokens
("Whitespace and any other trivia between tokens is skippable"); the
skipping itself is done by TSPL's `skip_trivia`, which is not in src/. -/
def isTrivia (c : Char) : Bool :=
  c == ' ' || c == '\n' || c == '\t' || c == '\r'

/-- Modelled from the spec: a name character is any non-trivia,
non-reserved character (reserved: the lambda marker and parentheses). -/
def isNameChar (c : Char) : Bool :=
  !(isTrivia c) && c != 'λ' && c != '(' && c != ')'

/-- Modelled from the spec: TSPL's `skip_trivia`, advancing the cursor
past trivia characters. -/
def skipTrivia (s : List Char) : List Char :=
  s.dropWhile isTrivia

/-- Modelled from the spec: TSPL's `parse_name`, reading a maximal run of
name characters after skipping trivia; an empty name is a parse error. -/
def parse_name (s : List Char) : Except String (String × List Char) :=
  let s1 := skipTrivia s
  let name := s1.takeWhile isNameChar
  if name = [] then Except.error "expected name"
  else Except.ok (String.mk name, s1.dropWhile isNameChar)

/-- Modelled from the spec: TSPL's `consume`, skipping trivia and then
requiring the expected character (here always a single character). -/
def consumeChar (c : Char) (s : List Char) : Except String (List Char) :=
  match skipTrivia s with
  | [] => Except.error "unexpected end of input"
  | x :: rest =>
      if x == c then Except.ok rest
      else Except.error ("expected " ++ String.mk [c])

/-- Fuel-indexed embedding of `TermParser::parse` (src/main.rs lines
52-73): skip trivia, then dispatch on the next character (lambda marker,
opening parenthesis, or a bare name).  Each recursive call of the Rust
function spends one unit of fuel; fuel exhaustion is reported as an error
so that success at some fuel captures termination of the Rust recursion. -/
def parseF : Nat → List Char → Except String (Term × List Char)
  | 0, _ => Except.error "out of fuel"
  | fuel + 1, s =>
    match skipTrivia s with
    | 'λ' :: rest =>
        match parse_name rest with
        | Except.ok (name, rest1) =>
            match parseF fuel rest1 with
            | Except.ok (body, rest2) => Except.ok (Term.lam name body, rest2)
            | Except.error e => Except.error e
        | Except.error e => Except.error e
    | '(' :: rest =>
        match parseF fuel rest with
        | Except.ok (func, rest1) =>
            match parseF fuel rest1 with
            | Except.ok (argm, rest2) =>
                match consumeChar ')' rest2 with
                | Except.ok rest3 => Except.ok (Term.app func argm, rest3)
                | Except.error e => Except.error e
            | Except.error e => Except.error e
        | Except.error e => Except.error e
    | s1 =>
        match parse_name s1 with
        | Except.ok (name, rest) => Except.ok (Term.var name, rest)
        | Except.error e => Except.error e

/-- Embedding of `to_de_bruijn` (src/main.rs lines 96-113).  The Rust
`context.to_vec(); insert(0, name)` is list cons; `iter().position(..)
.unwrap_or_else(|| context.len())` is `List.findIdx`, which returns the
length when no element satisfies the predicate. -/
def to_de_bruijn : Term → List String → DeBruijnTerm
  | Term.lam name body, context =>
      DeBruijnTerm.lam (to_de_bruijn body (name :: context))
  | Term.app func argm, context =>
      DeBruijnTerm.app (to_de_bruijn func context) (to_de_bruijn argm context)
  | Term.var name, context =>
      DeBruijnTerm.var (context.findIdx (fun x => x == name))

/-- Size of a named term, used as a fuel bound for the converter. -/
def termSize : Term → Nat
  | Term.lam _ body => termSize body + 1
  | Term.app func argm => termSize func + termSize argm + 1
  | Term.var _ => 1

/-- Fuel-indexed variant of `to_de_bruijn`: each recursive call of the
Rust function spends one unit of fuel, so success at some finite fuel
witnesses termination of the Rust recursion. -/
def toDeBruijnFuel : Nat → Term → List String → Option DeBruijnTerm
  | 0, _, _ => none
  | fuel + 1, Term.lam name body, context =>
      (toDeBruijnFuel fuel body (name :: context)).map DeBruijnTerm.lam
  | fuel + 1, Term.app func argm, context =>
      match toDeBruijnFuel fuel func context, toDeBruijnFuel fuel argm context with
      | some f, some a => some (DeBruijnTerm.app f a)
      | _, _ => none
  | _ + 1, Term.var name, context =>
      some (DeBruijnTerm.var (context.findIdx (fun x => x == name)))

/-- Embedding of the `fmt::Debug` printer for `DeBruijnTerm`
(src/main.rs lines 86-94). -/
def dbFormat : DeBruijnTerm → String
  | DeBruijnTerm.lam body => "λ" ++ dbFormat body
  | DeBruijnTerm.app func argm => "(" ++ dbFormat func ++ " " ++ dbFormat argm ++ ")"
  | DeBruijnTerm.var index => Nat.repr index

/-- Embedding of `shift_above` (src/main.rs lines 218-237).  The Rust
amount is an `isize`, modelled as `Int`; the Rust cast
`((*i as isize) + amount) as usize` is modelled as `Int.toNat`, which
agrees with the Rust cast whenever the sum is nonnegative (a negative sum
would wrap modulo 2^64 in Rust and clamp to 0 here; neither equals the
mathematical sum, and such sums are shown unreachable from `beta_reduce`). -/
def shift_above : DeBruijnTerm → Int → Nat → DeBruijnTerm
  | DeBruijnTerm.var i, amount, cutoff =>
      if i ≥ cutoff then DeBruijnTerm.var (((i : Int) + amount).toNat)
      else DeBruijnTerm.var i
  | DeBruijnTerm.lam body, amount, cutoff =>
      DeBruijnTerm.lam (shift_above body amount (cutoff + 1))
  | DeBruijnTerm.app func argm, amount, cutoff =>
      DeBruijnTerm.app (shift_above func amount cutoff) (shift_above argm amount cutoff)

/-- Embedding of `shift` (src/main.rs lines 213-215). -/
def shift (t : DeBruijnTerm) (amount : Int) : DeBruijnTerm :=
  shift_above t amount 0

/-- Comparison definition for claim C10, following the spec's words: a
shift by a nonnegative amount adds exactly that amount to every variable
index at or above the cutoff, with plain natural-number addition (no
signed/unsigned conversion). -/
def shiftAboveNat : DeBruijnTerm → Nat → Nat → DeBruijnTerm
  | DeBruijnTerm.var i, amount, cutoff =>
      if i ≥ cutoff then DeBruijnTerm.var (i + amount)
      else DeBruijnTerm.var i
  | DeBruijnTerm.lam body, amount, cutoff =>
      DeBruijnTerm.lam (shiftAboveNat body amount (cutoff + 1))
  | DeBruijnTerm.app func argm, amount, cutoff =>
      DeBruijnTerm.app (shiftAboveNat func amount cutoff) (shiftAboveNat argm amount cutoff)

/-- Embedding of `substitute` (src/main.rs lines 184-210). -/
def substitute : DeBruijnTerm → Nat → DeBruijnTerm → DeBruijnTerm
  | DeBruijnTerm.var i, index, replacement =>
      if i = index then replacement
      else if i > index then DeBruijnTerm.var (i - 1)
      else DeBruijnTerm.var i
  | DeBruijnTerm.lam body, index, replacement =>
      DeBruijnTerm.lam (substitute body (index + 1) (shift replacement 1))
  | DeBruijnTerm.app func argm, index, replacement =>
      DeBruijnTerm.app (substitute func index replacement) (substitute argm index replacement)

/-- Fuel-indexed embedding of `beta_reduce` (src/main.rs lines 158-181).
The Rust recursion is not structural (after firing a redex it recurses on
the substituted body), so it is modelled with fuel: each recursive call
spends one unit, and `none` means the fuel ran out.  Success at some fuel
corresponds exactly to termination of the Rust function. -/
def betaReduce : Nat → DeBruijnTerm → Option DeBruijnTerm
  | 0, _ => none
  | fuel + 1, DeBruijnTerm.lam body =>
      match betaReduce fuel body with
      | some b => some (DeBruijnTerm.lam b)
      | none => none
  | fuel + 1, DeBruijnTerm.app func argm =>
      match betaReduce fuel func, betaReduce fuel argm with
      | some rf, some ra =>
          match rf with
          | DeBruijnTerm.lam body => betaReduce fuel (substitute body 0 ra)
          | _ => some (DeBruijnTerm.app rf ra)
      | _, _ => none
  | _ + 1, DeBruijnTerm.var i => some (DeBruijnTerm.var i)

/-- Closedness of a named term relative to a context of bound names: every
variable occurrence names some entry of the context in scope there. -/
def closedUnder (context : List String) : Term → Bool
  | Term.lam name body => closedUnder (name :: context) body
  | Term.app func argm => closedUnder context func && closedUnder context argm
  | Term.var name => context.contains name

/-- Every variable index of the nameless term is strictly below the number
of enclosing abstractions plus the ambient depth `d`. -/
def wellScoped (d : Nat) : DeBruijnTerm → Bool
  | DeBruijnTerm.lam body => wellScoped (d + 1) body
  | DeBruijnTerm.app func argm => wellScoped d func && wellScoped d argm
  | DeBruijnTerm.var i => decide (i < d)

/-- Normal forms of the reducer: no application whose function position is
an abstraction occurs anywhere in the term. -/
def isNormal : DeBruijnTerm → Bool
  | DeBruijnTerm.var _ => true
  | DeBruijnTerm.lam body => isNormal body
  | DeBruijnTerm.app (DeBruijnTerm.lam _) _ => false
  | DeBruijnTerm.app func argm => isNormal func && isNormal argm

/-- Height of a nameless term, used as a fuel bound for reducing a term
that is already in normal form. -/
def height : DeBruijnTerm → Nat
  | DeBruijnTerm.var _ => 0
  | DeBruijnTerm.lam body => height body + 1
  | DeBruijnTerm.app func argm => max (height func) (height argm) + 1

/-- If a name is absent from the context, `List.findIdx` with the
membership test returns the context's length, as in the Rust
`unwrap_or_else(|| context.len())`. -/
theorem findIdx_beq_eq_length (name : String) (context : List String)
    (h : name ∉ context) :
    List.findIdx (fun x => x == name) context = context.length := by
  induction context with
  | nil => rfl
  | cons a l ih =>
      have ha : (a == name) = false :=
        beq_eq_false_iff_ne.mpr (fun e => h (by simp [e]))
      simp [List.findIdx_cons, ha, ih (fun hm => h (List.mem_cons_of_mem a hm))]

/-- If a name occurs in the context, `List.findIdx` returns an index
strictly below the context's length. -/
theorem findIdx_beq_lt_length (name : String) (context : List String)
    (h : name ∈ context) :
    List.findIdx (fun x => x == name) context < context.length := by
  induction context with
  | nil => simp at h
  | cons a l ih =>
      by_cases hb : a = name
      · simp [List.findIdx_cons, hb]
      · have hm : name ∈ l := by
          rcases List.mem_cons.mp h with h1 | h1
          · exact absurd h1.symm hb
          · exact h1
        have hbb : (a == name) = false := beq_eq_false_iff_ne.mpr hb
        simp only [List.findIdx_cons, hbb, cond_false, List.length_cons]
        exact Nat.succ_lt_succ (ih hm)

/-- The index returned by `List.findIdx` is below every position holding
the name, and itself holds the name: it is the innermost match. -/
theorem findIdx_beq_min (name : String) (context : List String) (k : Nat)
    (hk : context[k]? = some name) :
    List.findIdx (fun x => x == name) context ≤ k ∧
    context[List.findIdx (fun x => x == name) context]? = some name := by
  induction context generalizing k with
  | nil => simp at hk
  | cons a l ih =>
      by_cases hb : a = name
      · simp [List.findIdx_cons, hb]
      · have hbb : (a == name) = false := beq_eq_false_iff_ne.mpr hb
        cases k with
        | zero =>
            simp at hk
            exact absurd hk hb
        | succ k' =>
            simp only [List.getElem?_cons_succ] at hk
            obtain ⟨h1, h2⟩ := ih k' hk
            simp only [List.findIdx_cons, hbb, cond_false, List.getElem?_cons_succ]
            exact ⟨Nat.succ_le_succ h1, h2⟩

/-- Shifting by zero leaves the term unchanged, at any cutoff. -/
theorem shift_above_zero (t : DeBruijnTerm) : ∀ cutoff : Nat, shift_above t 0 cutoff = t := by
  induction t with
  | lam body ih => intro c; simp [shift_above, ih]
  | app f a ihf iha => intro c; simp [shift_above, ihf, iha]
  | var i => intro c; simp [shift_above]

/-- For a nonnegative amount, the signed-arithmetic shift of the source
agrees with the plain natural-number shift: the signed-to-unsigned
conversion is exact (no underflow). -/
theorem shift_above_toNat_exact (t : DeBruijnTerm) (a : Int) (ha : 0 ≤ a) :
    ∀ cutoff : Nat, shift_above t a cutoff = shiftAboveNat t a.toNat cutoff := by
  induction t with
  | var i =>
      intro c
      simp only [shift_above, shiftAboveNat]
      split
      · congr 1
        omega
      · rfl
  | lam body ih => intro c; simp [shift_above, shiftAboveNat, ih]
  | app f g ihf ihg => intro c; simp [shift_above, shiftAboveNat, ihf, ihg]

/-- A named term whose free variables all occur in the context converts to
a nameless term whose indices all stay below the enclosing depth. -/
theorem closedUnder_wellScoped (t : Term) :
    ∀ context : List String, closedUnder context t = true →
      wellScoped context.length (to_de_bruijn t context) = true := by
  induction t with
  | lam name body ih =>
      intro context h
      have := ih (name :: context) (by simpa [closedUnder] using h)
      simpa [to_de_bruijn, wellScoped] using this
  | app func argm ihf iha =>
      intro context h
      simp only [closedUnder, Bool.and_eq_true] at h
      simp [to_de_bruijn, wellScoped, ihf context h.1, iha context h.2]
  | var name =>
      intro context h
      simp only [closedUnder] at h
      have hm : name ∈ context := by simpa using h
      simp [to_de_bruijn, wellScoped, findIdx_beq_lt_length name context hm]

/-- Every named term has positive size. -/
theorem termSize_pos (t : Term) : 0 < termSize t := by
  cases t <;> simp [termSize]

/-- The fuel-indexed converter succeeds as soon as the fuel reaches the
term's size, and then agrees with `to_de_bruijn`: the Rust recursion
terminates on every input. -/
theorem toDeBruijnFuel_complete (t : Term) :
    ∀ (fuel : Nat) (context : List String), termSize t ≤ fuel →
      toDeBruijnFuel fuel t context = some (to_de_bruijn t context) := by
  induction t with
  | lam name body ih =>
      intro fuel context h
      cases fuel with
      | zero => exact absurd h (by simp [termSize])
      | succ n =>
          have : termSize body ≤ n := by simp [termSize] at h; omega
          simp [toDeBruijnFuel, to_de_bruijn, ih n (name :: context) this]
  | app func argm ihf iha =>
      intro fuel context h
      cases fuel with
      | zero =>
          have := termSize_pos (Term.app func argm)
          omega
      | succ n =>
          have hf : termSize func ≤ n := by simp [termSize] at h; omega
          have ha : termSize argm ≤ n := by simp [termSize] at h; omega
          simp [toDeBruijnFuel, to_de_bruijn, ihf n context hf, iha n context ha]
  | var name =>
      intro fuel context h
      cases fuel with
      | zero => exact absurd h (by simp [termSize])
      | succ n => simp [toDeBruijnFuel, to_de_bruijn]

/-- Whatever `beta_reduce` returns is in normal form: no redex survives. -/
theorem betaReduce_isNormal :
    ∀ (fuel : Nat) (t u : DeBruijnTerm), betaReduce fuel t = some u → isNormal u = true := by
  intro fuel
  induction fuel with
  | zero => intro t u h; simp [betaReduce] at h
  | succ n ih =>
      intro t u h
      cases t with
      | var i =>
          simp [betaReduce] at h
          subst h
          rfl
      | lam body =>
          cases hb : betaReduce n body with
          | none => simp [betaReduce, hb] at h
          | some b =>
              simp [betaReduce, hb] at h
              subst h
              simpa [isNormal] using ih body b hb
      | app func argm =>
          cases hf : betaReduce n func with
          | none => simp [betaReduce, hf] at h
          | some rf =>
              cases ha : betaReduce n argm with
              | none => simp [betaReduce, hf, ha] at h
              | some ra =>
                  cases rf with
                  | lam body =>
                      simp [betaReduce, hf, ha] at h
                      exact ih _ u h
                  | var j =>
                      simp [betaReduce, hf, ha] at h
                      subst h
                      simp [isNormal]
                      exact ih argm ra ha
                  | app f2 a2 =>
                      simp [betaReduce, hf, ha] at h
                      subst h
                      simp [isNormal]
                      exact ⟨by simpa [isNormal] using ih func (DeBruijnTerm.app f2 a2) hf,
                             ih argm ra ha⟩

/-- Reducing a term already in normal form returns it unchanged, for any
fuel beyond the term's height. -/
theorem isNormal_betaReduce_self (t : DeBruijnTerm) :
    ∀ fuel : Nat, isNormal t = true → height t < fuel → betaReduce fuel t = some t := by
  induction t with
  | var i =>
      intro fuel _ hf
      cases fuel with
      | zero => omega
      | succ n => simp [betaReduce]
  | lam body ih =>
      intro fuel hn hf
      cases fuel with
      | zero => omega
      | succ n =>
          have hh : height body < n := by simp [height] at hf; omega
          simp [betaReduce, ih n (by simpa [isNormal] using hn) hh]
  | app func argm ihf iha =>
      intro fuel hn hf
      cases fuel with
      | zero => omega
      | succ n =>
          have hhf : height func < n := by simp [height] at hf; omega
          have hha : height argm < n := by simp [height] at hf; omega
          cases func with
          | lam body => simp [isNormal] at hn
          | var j =>
              simp [isNormal] at hn
              simp [betaReduce, ihf n rfl hhf, iha n hn hha]
          | app f2 a2 =>
              simp only [isNormal, Bool.and_eq_true] at hn
              simp [betaReduce, ihf n (by simpa [isNormal] using hn.1) hhf, iha n hn.2 hha]

/-- A normal form is a fixed point of the reducer at every fuel at which
the reducer succeeds. -/
theorem betaReduce_fixed_of_isNormal (u : DeBruijnTerm) :
    ∀ (fuel : Nat) (v : DeBruijnTerm), isNormal u = true → betaReduce fuel u = some v → v = u := by
  induction u with
  | var i =>
      intro fuel v _ h
      cases fuel with
      | zero => simp [betaReduce] at h
      | succ n => simp [betaReduce] at h; exact h.symm
  | lam body ih =>
      intro fuel v hn h
      cases fuel with
      | zero => simp [betaReduce] at h
      | succ n =>
          cases hb : betaReduce n body with
          | none => simp [betaReduce, hb] at h
          | some b =>
              simp [betaReduce, hb] at h
              have := ih n b (by simpa [isNormal] using hn) hb
              rw [← h, this]
  | app func argm ihf iha =>
      intro fuel v hn h
      cases fuel with
      | zero => simp [betaReduce] at h
      | succ n =>
          cases hf : betaReduce n func with
          | none => simp [betaReduce, hf] at h
          | some rf =>
              cases ha : betaReduce n argm with
              | none => simp [betaReduce, hf, ha] at h
              | some ra =>
                  cases func with
                  | lam body => simp [isNormal] at hn
                  | var j =>
                      simp [isNormal] at hn
                      have h1 : rf = DeBruijnTerm.var j := ihf n rf rfl hf
                      have h2 : ra = argm := iha n ra hn ha
                      subst h1
                      simp [betaReduce, hf, ha] at h
                      rw [← h, h2]
                  | app f2 a2 =>
                      simp only [isNormal, Bool.and_eq_true] at hn
                      have h1 : rf = DeBruijnTerm.app f2 a2 :=
                        ihf n rf (by simpa [isNormal] using hn.1) hf
                      have h2 : ra = argm := iha n ra hn.2 ha
                      subst h1
                      simp [betaReduce, hf, ha] at h
                      rw [← h, h2]

/-- C1: the claim expects parsing "(λx x y)", converting with the empty
context, fully beta-reducing and printing to yield "1".  Evaluating the
embedded pipeline shows it yields "0": the free variable y converts to
index 0 (the empty context's length), and substituting it for the bound
variable of λ0 returns it unchanged.  The repository's own test
`test_beta_reduction` asserts "1", contradicting its own functions. -/
theorem c1_pipeline_prints_zero :
    (parseF 10 "(λx x y)".data).map
        (fun p => (betaReduce 10 (to_de_bruijn p.1 [])).map dbFormat)
      = Except.ok (some "0") ∧
    (parseF 10 "(λx x y)".data).map
        (fun p => (betaReduce 10 (to_de_bruijn p.1 [])).map dbFormat)
      ≠ Except.ok (some "1") := by
  constructor
  · rfl
  · intro h
    have h2 : (Except.ok (some "0") : Except String (Option String))
        = Except.ok (some "1") := (Eq.symm (by rfl)).trans h
    simp at h2

/-- C2: a named term closed under the empty context converts to a
nameless term in which every variable index is strictly below the number
of abstractions enclosing that occurrence. -/
theorem c2_closed_term_well_scoped (t : Term) (h : closedUnder [] t = true) :
    wellScoped 0 (to_de_bruijn t []) = true :=
  closedUnder_wellScoped t [] h

theorem c2_witness :
    closedUnder [] (Term.lam "x" (Term.var "x")) = true ∧
    wellScoped 0 (to_de_bruijn (Term.lam "x" (Term.var "x")) []) = true :=
  ⟨by decide, c2_closed_term_well_scoped (Term.lam "x" (Term.var "x")) (by decide)⟩

/-- C3: when reduction terminates (succeeds at some fuel), its result is
a fixed point of the reducer: reducing the result again succeeds and
returns the same term, at any fuel at which it succeeds. -/
theorem c3_beta_reduce_idempotent (fuel : Nat) (t u : DeBruijnTerm)
    (h : betaReduce fuel t = some u) :
    (∃ m, betaReduce m u = some u) ∧
    (∀ m v, betaReduce m u = some v → v = u) := by
  have hn := betaReduce_isNormal fuel t u h
  exact ⟨⟨height u + 1, isNormal_betaReduce_self u (height u + 1) hn (Nat.lt_succ_self _)⟩,
    fun m v hv => betaReduce_fixed_of_isNormal u m v hn hv⟩

theorem c3_witness :
    (∃ m, betaReduce m (DeBruijnTerm.lam (DeBruijnTerm.var 0))
        = some (DeBruijnTerm.lam (DeBruijnTerm.var 0))) ∧
    (∀ m v, betaReduce m (DeBruijnTerm.lam (DeBruijnTerm.var 0)) = some v →
        v = DeBruijnTerm.lam (DeBruijnTerm.var 0)) :=
  c3_beta_reduce_idempotent 3
    (DeBruijnTerm.app (DeBruijnTerm.lam (DeBruijnTerm.var 0))
      (DeBruijnTerm.lam (DeBruijnTerm.var 0)))
    (DeBruijnTerm.lam (DeBruijnTerm.var 0)) rfl

/-- C4: substitution on a variable yields the replacement at the target
index, decrements indices above the target, and leaves indices below the
target unchanged; in particular substituting at index 0 maps Variable(0)
to the replacement and Variable(k+1) to Variable(k). -/
theorem c4_substitute_variable (i index k : Nat) (R : DeBruijnTerm) :
    substitute (DeBruijnTerm.var i) index R =
      (if i = index then R
       else if i > index then DeBruijnTerm.var (i - 1)
       else DeBruijnTerm.var i) ∧
    substitute (DeBruijnTerm.var 0) 0 R = R ∧
    substitute (DeBruijnTerm.var (k + 1)) 0 R = DeBruijnTerm.var k := by
  refine ⟨rfl, rfl, ?_⟩
  simp [substitute]

/-- C5: shifting a term by amount zero is the identity. -/
theorem c5_shift_zero_identity (t : DeBruijnTerm) : shift t 0 = t :=
  shift_above_zero t 0

/-- C6: converting a variable absent from the binding context emits an
index equal to the context's length; concretely, parsing the source
"λx z" and converting it with the empty context prints "λ1". -/
theorem c6_unbound_variable_index (name : String) (context : List String)
    (h : name ∉ context) :
    to_de_bruijn (Term.var name) context = DeBruijnTerm.var context.length ∧
    (parseF 9 "λx z".data).map (fun p => dbFormat (to_de_bruijn p.1 []))
      = Except.ok "λ1" := by
  constructor
  · simp only [to_de_bruijn]
    rw [findIdx_beq_eq_length name context h]
  · rfl

theorem c6_witness :
    to_de_bruijn (Term.var "z") ["x"] = DeBruijnTerm.var 1 :=
  (c6_unbound_variable_index "z" ["x"] (by decide)).1

/-- C7: when a name occurs in the binding context, conversion emits the
smallest matching index (the innermost binding): the emitted index holds
the name and is at most any position holding it; concretely λx λx x
resolves its variable to index 0. -/
theorem c7_shadowing_innermost (name : String) (context : List String) (k : Nat)
    (hk : context[k]? = some name) :
    (∃ j, to_de_bruijn (Term.var name) context = DeBruijnTerm.var j ∧ j ≤ k ∧
        context[j]? = some name) ∧
    to_de_bruijn (Term.lam "x" (Term.lam "x" (Term.var "x"))) [] =
      DeBruijnTerm.lam (DeBruijnTerm.lam (DeBruijnTerm.var 0)) := by
  obtain ⟨h1, h2⟩ := findIdx_beq_min name context k hk
  exact ⟨⟨List.findIdx (fun x => x == name) context, rfl, h1, h2⟩, rfl⟩

theorem c7_witness :
    to_de_bruijn (Term.lam "x" (Term.lam "x" (Term.var "x"))) [] =
      DeBruijnTerm.lam (DeBruijnTerm.lam (DeBruijnTerm.var 0)) :=
  (c7_shadowing_innermost "x" ["x", "x"] 1 rfl).2

/-- C8: the converter is total: for every named term and context the Rust
recursion terminates (the fuel-indexed converter succeeds once the fuel
reaches the term's size) and returns the nameless term, never an error. -/
theorem c8_converter_total (t : Term) (context : List String) (fuel : Nat)
    (h : termSize t ≤ fuel) :
    toDeBruijnFuel fuel t context = some (to_de_bruijn t context) :=
  toDeBruijnFuel_complete t fuel context h

theorem c8_witness :
    toDeBruijnFuel 1 (Term.var "w") [] = some (to_de_bruijn (Term.var "w") []) :=
  c8_converter_total (Term.var "w") [] 1 (by decide)

/-- C9: parsing an application consumes exactly two sub-terms after the
opening parenthesis and then requires the closing parenthesis: the result
is the application of the two parsed sub-terms when the next token is the
closing parenthesis, and a parse error whenever it is missing. -/
theorem c9_application_requires_close (fuel : Nat) (s rest r1 r2 : List Char)
    (t1 t2 : Term)
    (hs : skipTrivia s = '(' :: rest)
    (h1 : parseF fuel rest = Except.ok (t1, r1))
    (h2 : parseF fuel r1 = Except.ok (t2, r2)) :
    parseF (fuel + 1) s =
      (match consumeChar ')' r2 with
        | Except.ok r3 => Except.ok (Term.app t1 t2, r3)
        | Except.error e => Except.error e) ∧
    ((∀ r3, consumeChar ')' r2 ≠ Except.ok r3) →
      ∃ e, parseF (fuel + 1) s = Except.error e) := by
  have key : parseF (fuel + 1) s =
      (match consumeChar ')' r2 with
        | Except.ok r3 => Except.ok (Term.app t1 t2, r3)
        | Except.error e => Except.error e) := by
    rw [parseF, hs]
    simp [h1, h2]
  refine ⟨key, fun hfail => ?_⟩
  cases hc : consumeChar ')' r2 with
  | ok r3 => exact absurd hc (hfail r3)
  | error e => exact ⟨e, by rw [key, hc]⟩

theorem c9_witness :
    parseF 3 "(x y".data = Except.error "unexpected end of input" := by
  have h := (c9_application_requires_close 2 "(x y".data "x y".data " y".data []
      (Term.var "x") (Term.var "y") rfl rfl rfl).1
  exact h.trans rfl

/-- C10: a shift by a nonnegative amount maps every variable index at or
above the cutoff to exactly the index plus the amount (the
signed-to-unsigned conversion is exact, no underflow), and substitution,
the only caller of shift reachable from beta reduction, invokes it with
amount +1, which is nonnegative. -/
theorem c10_shift_nonneg_no_underflow (t : DeBruijnTerm) (a : Int) (cutoff : Nat)
    (body r : DeBruijnTerm) (index : Nat) (ha : 0 ≤ a) :
    shift_above t a cutoff = shiftAboveNat t a.toNat cutoff ∧
    substitute (DeBruijnTerm.lam body) index r =
      DeBruijnTerm.lam (substitute body (index + 1) (shiftAboveNat r 1 0)) := by
  refine ⟨shift_above_toNat_exact t a ha cutoff, ?_⟩
  have hr : shift r 1 = shiftAboveNat r 1 0 := by
    have := shift_above_toNat_exact r 1 (by decide) 0
    simpa [shift] using this
  simp [substitute, hr]

theorem c10_witness :
    shift_above (DeBruijnTerm.var 5) 1 0
      = shiftAboveNat (DeBruijnTerm.var 5) (Int.toNat 1) 0 :=
  (c10_shift_nonneg_no_underflow (DeBruijnTerm.var 5) 1 0 (DeBruijnTerm.var 0)
    (DeBruijnTerm.var 0) 0 (by decide)).1
